import Mathlib

/-!
Verification of the indicator engine and data-access helpers of the
nasdaq stock analyzer (`app.py`).

Numeric series are modelled over `ℚ` (exact arithmetic standing for the
source's floats).  Positions that the source leaves as IEEE NaN or ±inf
(from `diff`, insufficient rolling history, or division by zero) are
modelled explicitly with the `EFloat` type below, whose arithmetic follows
the IEEE rules for the operations the source performs.
-/

namespace NasdaqStock

/-- Extended value: a finite rational, a signed infinity (`inf true` = +∞),
or NaN.  Models the IEEE float values that flow through the pandas
pipeline. -/
inductive EFloat where
  | nan : EFloat
  | inf : Bool → EFloat
  | val : ℚ → EFloat
deriving DecidableEq, Repr

namespace EFloat

/-- IEEE addition on extended values. -/
def add : EFloat → EFloat → EFloat
  | nan, _ => nan
  | _, nan => nan
  | inf b, inf c => if b = c then inf b else nan
  | inf b, val _ => inf b
  | val _, inf c => inf c
  | val a, val b => val (a + b)

/-- IEEE negation on extended values. -/
def neg : EFloat → EFloat
  | nan => nan
  | inf b => inf (!b)
  | val a => val (-a)

/-- IEEE subtraction on extended values. -/
def sub (x y : EFloat) : EFloat := add x (neg y)

/-- IEEE division on extended values (zero treated as +0, as produced by
the source's pipeline). -/
def div : EFloat → EFloat → EFloat
  | nan, _ => nan
  | _, nan => nan
  | inf b, inf _ => if b then nan else nan
  | inf b, val c => if c < 0 then inf (!b) else inf b
  | val _, inf _ => val 0
  | val a, val b =>
      if b = 0 then (if a = 0 then nan else inf (0 < a)) else val (a / b)

/-- `x > 0` as pandas evaluates it on floats: `NaN > 0` is `False`. -/
def gtZero : EFloat → Bool
  | nan => false
  | inf b => b
  | val a => decide (0 < a)

/-- `x < 0` as pandas evaluates it on floats: `NaN < 0` is `False`. -/
def ltZero : EFloat → Bool
  | nan => false
  | inf b => !b
  | val a => decide (a < 0)

end EFloat

/-- `series.diff()`: position 0 is NaN, position `i+1` is `x[i+1] − x[i]`. -/
def diff (xs : List ℚ) : List EFloat :=
  match xs with
  | [] => []
  | _ :: rest => EFloat.nan :: List.zipWith (fun a b => EFloat.val (a - b)) rest xs

/-- Sum a list of extended values if all of them are finite, else `none`
(used to decide whether a rolling window contains NaN). -/
def sumVals? : List EFloat → Option ℚ
  | [] => some 0
  | EFloat.val a :: rest => (sumVals? rest).map (fun s => a + s)
  | _ :: _ => none

/-- `series.rolling(window=w).mean()` with the default
`min_periods = w`: NaN until `w` observations are available, NaN whenever
the trailing window contains a NaN, else the window mean. -/
def rollingMean (w : ℕ) (xs : List EFloat) : List EFloat :=
  (List.range xs.length).map fun i =>
    if i + 1 < w then EFloat.nan
    else
      match sumVals? ((xs.take (i + 1)).drop (i + 1 - w)) with
      | none => EFloat.nan
      | some s => EFloat.val (s / w)

/-- `gain = delta.where(delta > 0, 0).rolling(window).mean()`
(app.py line 78). -/
def rsiGain (closes : List ℚ) (window : ℕ) : List EFloat :=
  rollingMean window
    ((diff closes).map fun d => if d.gtZero then d else EFloat.val 0)

/-- `loss = (-delta.where(delta < 0, 0)).rolling(window).mean()`
(app.py line 79). -/
def rsiLoss (closes : List ℚ) (window : ℕ) : List EFloat :=
  rollingMean window
    (((diff closes).map fun d => if d.ltZero then d else EFloat.val 0).map
      EFloat.neg)

/-- `calculate_rsi` (app.py lines 76–81): delta = close.diff();
gain/loss via `where`; rolling means; `rs = gain/loss`;
result `100 − 100/(1 + rs)`. -/
def calculate_rsi (closes : List ℚ) (window : ℕ) : List EFloat :=
  let rs := List.zipWith EFloat.div (rsiGain closes window)
    (rsiLoss closes window)
  rs.map fun r => EFloat.sub (EFloat.val 100) (EFloat.div (EFloat.val 100)
    (EFloat.add (EFloat.val 1) r))

/-- Tail of `ewm(span, adjust=False).mean()`: carries the previous output
and applies `y = α·x + (1−α)·prev`. -/
def ewmAux (α : ℚ) : ℚ → List ℚ → List ℚ
  | _, [] => []
  | prev, x :: rest =>
      let y := α * x + (1 - α) * prev
      y :: ewmAux α y rest

/-- `series.ewm(span=s, adjust=False).mean()`: seeded with the first
value, smoothing factor `α = 2/(s+1)`. -/
def ewmMean (span : ℕ) (xs : List ℚ) : List ℚ :=
  match xs with
  | [] => []
  | x :: rest => x :: ewmAux (2 / (span + 1)) x rest

/-- `calculate_macd` (app.py lines 83–88). -/
def calculate_macd (closes : List ℚ) (fast slow signal : ℕ) :
    List ℚ × List ℚ :=
  let ema_fast := ewmMean fast closes
  let ema_slow := ewmMean slow closes
  let macd := List.zipWith (fun a b => a - b) ema_fast ema_slow
  let signal_line := ewmMean signal macd
  (macd, signal_line)

/-- Running cumulative sums (`series.cumsum()`). -/
def cumsum (xs : List ℚ) : List ℚ :=
  match xs with
  | [] => []
  | x :: rest => x :: (cumsum rest).map (fun s => x + s)

/-- `tp = (data['high'] + data['low'] + data['close']) / 3`
(app.py line 91). -/
def tpList (high low close : List ℚ) : List ℚ :=
  (List.zipWith (fun a b => a + b)
    (List.zipWith (fun a b => a + b) high low) close).map (fun s => s / 3)

/-- `calculate_vwap` (app.py lines 90–92): typical price
`tp = (high+low+close)/3`; cumulative `tp·volume` over cumulative
volume, with IEEE division at positions of zero cumulative volume. -/
def calculate_vwap (high low close volume : List ℚ) : List EFloat :=
  let tp := tpList high low close
  List.zipWith (fun a b => EFloat.div (EFloat.val a) (EFloat.val b))
    (cumsum (List.zipWith (fun a b => a * b) tp volume))
    (cumsum volume)

/-- `series.rolling(w).mean()` over an all-finite series: `none` until
`w` observations are available. -/
def rollingMeanQ (w : ℕ) (xs : List ℚ) : List (Option ℚ) :=
  (List.range xs.length).map fun i =>
    if i + 1 < w then none
    else some (((xs.take (i + 1)).drop (i + 1 - w)).sum / w)

/-- `series.rolling(w).std()` squared: the sample variance
(ddof = 1 divisor `w−1`, the pandas default) of the trailing window. -/
def rollingVar (w : ℕ) (xs : List ℚ) : List (Option ℚ) :=
  (List.range xs.length).map fun i =>
    if i + 1 < w then none
    else
      let win := (xs.take (i + 1)).drop (i + 1 - w)
      let m := win.sum / w
      some ((win.map (fun x => (x - m) ^ 2)).sum / (w - 1))

/-- Bollinger middle band (app.py line 171): `close.rolling(20).mean()`. -/
def bollingerMiddle (closes : List ℚ) : List (Option ℚ) :=
  rollingMeanQ 20 closes

/-- Bollinger upper band (app.py line 172):
`MA20 + 2·close.rolling(20).std()`. -/
noncomputable def bollingerUpper (closes : List ℚ) : List (Option ℝ) :=
  List.zipWith (fun mo vo => mo.bind fun (m : ℚ) => vo.map fun (v : ℚ) =>
      (m : ℝ) + 2 * Real.sqrt (v : ℝ))
    (bollingerMiddle closes) (rollingVar 20 closes)

/-- Bollinger lower band (app.py line 173):
`MA20 − 2·close.rolling(20).std()`. -/
noncomputable def bollingerLower (closes : List ℚ) : List (Option ℝ) :=
  List.zipWith (fun mo vo => mo.bind fun (m : ℚ) => vo.map fun (v : ℚ) =>
      (m : ℝ) - 2 * Real.sqrt (v : ℝ))
    (bollingerMiddle closes) (rollingVar 20 closes)

/-! ### Data-access helpers (app.py lines 14–73)

The HTTP transport is the excluded collaborator; `get_stock_data` and
`get_financial_ratios` are modelled from the point where the JSON body
has been obtained.  A well-typed response is a record carrying the
optional `"Error Message"` / `"Note"` string fields and the JSON-dict
entries that hold time series (dictionaries from timestamp to bar). -/

/-- One row of the resulting frame after the column renaming of
app.py lines 48–54: open/high/low/close/volume, parsed as numbers. -/
structure RawBar where
  open_ : ℚ
  high : ℚ
  low : ℚ
  close : ℚ
  volume : ℚ
deriving DecidableEq, Repr

/-- The chart interval selected in the UI. -/
inductive Interval where
  | daily | weekly | monthly
deriving DecidableEq, Repr

/-- `time_series_keys` (app.py lines 33–37). -/
def timeSeriesKey : Interval → String
  | Interval.daily => "Time Series (Daily)"
  | Interval.weekly => "Weekly Time Series"
  | Interval.monthly => "Monthly Time Series"

/-- A decoded JSON response body for the price endpoint: the optional
error fields and the mapping entries that carry time series.  Timestamps
are the parsed index values (`pd.to_datetime` of unique dict keys). -/
structure ApiResponse where
  errorMessage : Option String
  note : Option String
  series : List (String × List (ℤ × RawBar))

/-- Dictionary lookup (`key in data` / `data[key]`). -/
def lookupKey (k : String) (l : List (String × List (ℤ × RawBar))) :
    Option (List (ℤ × RawBar)) :=
  (l.find? (fun p => p.1 == k)).map (fun p => p.2)

/-- `df.sort_index()`: stable sort by ascending timestamp. -/
def sortByTimestamp (ts : List (ℤ × RawBar)) : List (ℤ × RawBar) :=
  List.insertionSort (fun a b => a.1 ≤ b.1) ts

instance : IsTotal (ℤ × RawBar) (fun a b => a.1 ≤ b.1) :=
  ⟨fun a b => le_total a.1 b.1⟩

instance : IsTrans (ℤ × RawBar) (fun a b => a.1 ≤ b.1) :=
  ⟨fun _ _ _ hab hbc => le_trans hab hbc⟩

/-- `get_stock_data` (app.py lines 14–56), from the decoded response
on: raise on `"Error Message"`, raise on `"Note"`, raise when the
expected time-series key is absent, else rename the columns and return
the frame sorted by its timestamp index. -/
def get_stock_data (symbol : String) (interval : Interval)
    (data : ApiResponse) : Except String (List (ℤ × RawBar)) :=
  if data.errorMessage.isSome then
    Except.error ("API Error: " ++ data.errorMessage.getD "")
  else if data.note.isSome then
    Except.error ("API Limit: " ++ data.note.getD "")
  else
    match lookupKey (timeSeriesKey interval) data.series with
    | none => Except.error ("Unexpected API response format for " ++ symbol)
    | some ts => Except.ok (sortByTimestamp ts)

/-- `get_financial_ratios` (app.py lines 58–73), from the decoded
JSON-object response on: eight labeled fields, each absent key replaced
by the `"N/A"` placeholder via `data.get(key, "N/A")`. -/
def get_financial_ratios (data : List (String × String)) : List (String × String) :=
  let get := fun (k : String) =>
    ((data.find? (fun p => p.1 == k)).map (fun p => p.2)).getD "N/A"
  [("P/E Ratio", get "PERatio"),
   ("EPS", get "EPS"),
   ("ROE", get "ReturnOnEquityTTM"),
   ("Market Cap", "$" ++ get "MarketCapitalization"),
   ("Dividend Yield", get "DividendYield" ++ "%"),
   ("Profit Margin", get "ProfitMargin"),
   ("52 Week High", get "52WeekHigh"),
   ("52 Week Low", get "52WeekLow")]

/-! ### Index-wise reference values for the RSI pipeline -/

/-- The gain the pipeline records at position `j`: zero at position 0
(where `diff` yields NaN, which `where(delta > 0, 0)` replaces by 0),
else the positive part of the close difference. -/
def gainAt (closes : List ℚ) (j : ℕ) : ℚ :=
  if j = 0 then 0 else max (closes.getD j 0 - closes.getD (j - 1) 0) 0

/-- The loss the pipeline records at position `j`: zero at position 0,
else the magnitude of the negative part of the close difference. -/
def lossAt (closes : List ℚ) (j : ℕ) : ℚ :=
  if j = 0 then 0 else max (closes.getD (j - 1) 0 - closes.getD j 0) 0

/-- Sum of `f` over the trailing window of length `w` ending at `i`. -/
def windowSum (f : ℕ → ℚ) (w i : ℕ) : ℚ :=
  ((List.range' (i + 1 - w) w).map f).sum

/-- The per-position RSI expression `100 − 100/(1 + g/l)` over extended
values, as produced by the final line of `calculate_rsi`. -/
def rsiFormula (g l : ℚ) : EFloat :=
  EFloat.sub (EFloat.val 100) (EFloat.div (EFloat.val 100)
    (EFloat.add (EFloat.val 1) (EFloat.div (EFloat.val g) (EFloat.val l))))

lemma length_diff (xs : List ℚ) : (diff xs).length = xs.length := by
  cases xs with
  | nil => rfl
  | cons x rest => simp [diff]

lemma diff_getElem? (xs : List ℚ) (j : ℕ) (hj : j < xs.length) :
    (diff xs)[j]? = some (if j = 0 then EFloat.nan
      else EFloat.val (xs.getD j 0 - xs.getD (j - 1) 0)) := by
  cases xs with
  | nil => simp at hj
  | cons x rest =>
    cases j with
    | zero => simp [diff]
    | succ j =>
      have hj' : j < rest.length := by simpa using hj
      simp [diff, List.getElem?_zipWith', List.getElem?_eq_getElem hj',
        List.getElem?_eq_getElem hj, List.getD_eq_getElem?_getD,
        List.getElem?_eq_getElem (show j < (x :: rest).length by omega)]

lemma rollingMean_getElem? (w : ℕ) (xs : List EFloat) (i : ℕ)
    (hi : i < xs.length) :
    (rollingMean w xs)[i]? = some (if i + 1 < w then EFloat.nan
      else match sumVals? ((xs.take (i + 1)).drop (i + 1 - w)) with
        | none => EFloat.nan
        | some s => EFloat.val (s / w)) := by
  simp [rollingMean, List.getElem?_eq_getElem, hi]

lemma window_eq_map {α : Type} (xs : List α) (f : ℕ → α)
    (hf : ∀ j, j < xs.length → xs[j]? = some (f j)) (w i : ℕ)
    (hw : w ≤ i + 1) (hi : i < xs.length) :
    (xs.take (i + 1)).drop (i + 1 - w) =
      (List.range' (i + 1 - w) w).map f := by
  apply List.ext_getElem?
  intro n
  by_cases hn : n < w
  · have h1 : i + 1 - w + n < i + 1 := by omega
    have h2 : i + 1 - w + n < xs.length := by omega
    rw [List.getElem?_drop, List.getElem?_take_of_lt h1, hf _ h2,
      List.getElem?_map, List.getElem?_eq_getElem (by simpa using hn)]
    simp
  · have hL : ((xs.take (i + 1)).drop (i + 1 - w)).length ≤ n := by
      simp only [List.length_drop, List.length_take]
      omega
    have hR : ((List.range' (i + 1 - w) w).map f).length ≤ n := by
      simp only [List.length_map, List.length_range']
      omega
    rw [List.getElem?_eq_none hL, List.getElem?_eq_none hR]

lemma sumVals?_map_val (l : List ℕ) (f : ℕ → ℚ) :
    sumVals? (l.map fun j => EFloat.val (f j)) = some ((l.map f).sum) := by
  induction l with
  | nil => rfl
  | cons a l ih => simp [sumVals?, ih]

lemma gainSeries_getElem? (closes : List ℚ) (j : ℕ) (hj : j < closes.length) :
    ((diff closes).map fun d => if d.gtZero then d else EFloat.val 0)[j]? =
      some (EFloat.val (gainAt closes j)) := by
  have hj' : j < (diff closes).length := by rw [length_diff]; exact hj
  have hE : (diff closes)[j] = (if j = 0 then EFloat.nan
      else EFloat.val (closes.getD j 0 - closes.getD (j - 1) 0)) := by
    have h := diff_getElem? closes j hj
    rw [List.getElem?_eq_getElem hj'] at h
    exact Option.some_inj.mp h
  rw [List.getElem?_map, List.getElem?_eq_getElem hj', Option.map_some']
  rcases Nat.eq_zero_or_pos j with h0 | hpos
  · subst h0
    rw [hE]
    simp [EFloat.gtZero, gainAt]
  · have hne : j ≠ 0 := Nat.pos_iff_ne_zero.mp hpos
    rw [hE, if_neg hne]
    simp only [EFloat.gtZero, gainAt, if_neg hne]
    by_cases hd : 0 < closes.getD j 0 - closes.getD (j - 1) 0
    · rw [if_pos (by simpa using hd), max_eq_left (le_of_lt hd)]
    · rw [if_neg (by simpa using hd), max_eq_right (le_of_not_lt hd)]

lemma lossSeries_getElem? (closes : List ℚ) (j : ℕ) (hj : j < closes.length) :
    (((diff closes).map fun d => if d.ltZero then d else EFloat.val 0).map
      EFloat.neg)[j]? = some (EFloat.val (lossAt closes j)) := by
  have hj' : j < (diff closes).length := by rw [length_diff]; exact hj
  have hE : (diff closes)[j] = (if j = 0 then EFloat.nan
      else EFloat.val (closes.getD j 0 - closes.getD (j - 1) 0)) := by
    have h := diff_getElem? closes j hj
    rw [List.getElem?_eq_getElem hj'] at h
    exact Option.some_inj.mp h
  rw [List.getElem?_map, List.getElem?_map, List.getElem?_eq_getElem hj',
    Option.map_some', Option.map_some']
  have hopp : closes.getD (j - 1) 0 - closes.getD j 0 =
      -(closes.getD j 0 - closes.getD (j - 1) 0) := by ring
  rcases Nat.eq_zero_or_pos j with h0 | hpos
  · subst h0
    rw [hE]
    simp [EFloat.ltZero, EFloat.neg, lossAt]
  · have hne : j ≠ 0 := Nat.pos_iff_ne_zero.mp hpos
    rw [hE, if_neg hne]
    simp only [EFloat.ltZero, lossAt, if_neg hne, hopp]
    by_cases hd : closes.getD j 0 - closes.getD (j - 1) 0 < 0
    · rw [if_pos (by simpa using hd),
        max_eq_left (by linarith : (0:ℚ) ≤ -(closes.getD j 0 - closes.getD (j - 1) 0))]
      simp [EFloat.neg]
    · rw [if_neg (by simpa using hd),
        max_eq_right (by linarith : -(closes.getD j 0 - closes.getD (j - 1) 0) ≤ 0)]
      simp [EFloat.neg]

lemma length_rollingMean (w : ℕ) (xs : List EFloat) :
    (rollingMean w xs).length = xs.length := by
  simp [rollingMean]

lemma length_rsiGain (closes : List ℚ) (w : ℕ) :
    (rsiGain closes w).length = closes.length := by
  simp [rsiGain, length_rollingMean, length_diff]

lemma length_rsiLoss (closes : List ℚ) (w : ℕ) :
    (rsiLoss closes w).length = closes.length := by
  simp [rsiLoss, length_rollingMean, length_diff]

lemma length_calculate_rsi (closes : List ℚ) (w : ℕ) :
    (calculate_rsi closes w).length = closes.length := by
  simp [calculate_rsi, length_rsiGain, length_rsiLoss]

lemma rsiGain_getElem?_eq (closes : List ℚ) (w i : ℕ) (hw : w ≤ i + 1)
    (hi : i < closes.length) :
    (rsiGain closes w)[i]? =
      some (EFloat.val (windowSum (gainAt closes) w i / w)) := by
  set gs := (diff closes).map fun d => if d.gtZero then d else EFloat.val 0
    with hgs
  have hlen : gs.length = closes.length := by
    simp [hgs, length_diff]
  have hi' : i < gs.length := by rw [hlen]; exact hi
  rw [rsiGain, ← hgs, rollingMean_getElem? w gs i hi', if_neg (by omega)]
  rw [window_eq_map gs (fun j => EFloat.val (gainAt closes j))
    (fun j hj => gainSeries_getElem? closes j (by rwa [hlen] at hj)) w i hw hi']
  rw [sumVals?_map_val]
  rfl

lemma rsiLoss_getElem?_eq (closes : List ℚ) (w i : ℕ) (hw : w ≤ i + 1)
    (hi : i < closes.length) :
    (rsiLoss closes w)[i]? =
      some (EFloat.val (windowSum (lossAt closes) w i / w)) := by
  set ls := ((diff closes).map fun d => if d.ltZero then d else EFloat.val 0).map
    EFloat.neg with hls
  have hlen : ls.length = closes.length := by
    simp [hls, length_diff]
  have hi' : i < ls.length := by rw [hlen]; exact hi
  rw [rsiLoss, ← hls, rollingMean_getElem? w ls i hi', if_neg (by omega)]
  rw [window_eq_map ls (fun j => EFloat.val (lossAt closes j))
    (fun j hj => lossSeries_getElem? closes j (by rwa [hlen] at hj)) w i hw hi']
  rw [sumVals?_map_val]
  rfl

lemma rsiGain_getElem?_nan (closes : List ℚ) (w i : ℕ) (hw : i + 1 < w)
    (hi : i < closes.length) :
    (rsiGain closes w)[i]? = some EFloat.nan := by
  set gs := (diff closes).map fun d => if d.gtZero then d else EFloat.val 0
    with hgs
  have hi' : i < gs.length := by
    simp only [hgs, List.length_map, length_diff]; exact hi
  rw [rsiGain, ← hgs, rollingMean_getElem? w gs i hi', if_pos hw]

lemma rsiLoss_getElem?_nan (closes : List ℚ) (w i : ℕ) (hw : i + 1 < w)
    (hi : i < closes.length) :
    (rsiLoss closes w)[i]? = some EFloat.nan := by
  set ls := ((diff closes).map fun d => if d.ltZero then d else EFloat.val 0).map
    EFloat.neg with hls
  have hi' : i < ls.length := by
    simp only [hls, List.length_map, length_diff]; exact hi
  rw [rsiLoss, ← hls, rollingMean_getElem? w ls i hi', if_pos hw]

lemma calculate_rsi_getElem?_eq (closes : List ℚ) (w i : ℕ) (hw : w ≤ i + 1)
    (hi : i < closes.length) :
    (calculate_rsi closes w)[i]? =
      some (rsiFormula (windowSum (gainAt closes) w i / w)
        (windowSum (lossAt closes) w i / w)) := by
  rw [calculate_rsi]
  rw [List.getElem?_map, List.getElem?_zipWith',
    rsiGain_getElem?_eq closes w i hw hi, rsiLoss_getElem?_eq closes w i hw hi]
  rfl

lemma calculate_rsi_getElem?_nan (closes : List ℚ) (w i : ℕ) (hw : i + 1 < w)
    (hi : i < closes.length) :
    (calculate_rsi closes w)[i]? = some EFloat.nan := by
  rw [calculate_rsi]
  rw [List.getElem?_map, List.getElem?_zipWith',
    rsiGain_getElem?_nan closes w i hw hi, rsiLoss_getElem?_nan closes w i hw hi]
  rfl

lemma rsiFormula_of_pos (g l : ℚ) (hg : 0 ≤ g) (hl : 0 < l) :
    rsiFormula g l = EFloat.val (100 - 100 / (1 + g / l)) := by
  have h1 : l ≠ 0 := ne_of_gt hl
  have h2 : 0 ≤ g / l := div_nonneg hg hl.le
  have h3 : ¬(1 + g / l = 0) := by
    intro h
    linarith
  simp only [rsiFormula, EFloat.div, EFloat.add, EFloat.sub, EFloat.neg,
    if_neg h1, if_neg h3]
  congr 1
  ring

lemma rsiFormula_of_zero_loss (g : ℚ) (hg : 0 < g) :
    rsiFormula g 0 = EFloat.val 100 := by
  have h1 : ¬(g = 0) := ne_of_gt hg
  simp only [rsiFormula, EFloat.div, EFloat.add, EFloat.sub, EFloat.neg,
    if_pos rfl, if_neg h1, decide_eq_true hg]
  norm_num

lemma rsiFormula_zero_zero : rsiFormula 0 0 = EFloat.nan := by
  simp [rsiFormula, EFloat.div, EFloat.add, EFloat.sub, EFloat.neg]

lemma gainAt_nonneg (closes : List ℚ) (j : ℕ) : 0 ≤ gainAt closes j := by
  unfold gainAt
  split
  · exact le_refl 0
  · exact le_max_right _ _

lemma lossAt_nonneg (closes : List ℚ) (j : ℕ) : 0 ≤ lossAt closes j := by
  unfold lossAt
  split
  · exact le_refl 0
  · exact le_max_right _ _

lemma windowSum_nonneg (f : ℕ → ℚ) (hf : ∀ j, 0 ≤ f j) (w i : ℕ) :
    0 ≤ windowSum f w i := by
  apply List.sum_nonneg
  intro x hx
  obtain ⟨j, _, rfl⟩ := List.mem_map.mp hx
  exact hf j

lemma windowSum_eq_zero (f : ℕ → ℚ) (w i : ℕ) (hw : w ≤ i + 1)
    (hf : ∀ j, i + 1 - w ≤ j → j ≤ i → f j = 0) :
    windowSum f w i = 0 := by
  apply List.sum_eq_zero
  intro x hx
  obtain ⟨j, hj, rfl⟩ := List.mem_map.mp hx
  rw [List.mem_range'_1] at hj
  exact hf j hj.1 (by omega)

lemma rsiFormula_val_bounds (g l q : ℚ) (hg : 0 ≤ g) (hl : 0 ≤ l)
    (hq : rsiFormula g l = EFloat.val q) : 0 ≤ q ∧ q ≤ 100 := by
  rcases eq_or_lt_of_le hl with hl0 | hlpos
  · rcases eq_or_lt_of_le hg with hg0 | hgpos
    · rw [← hg0, ← hl0, rsiFormula_zero_zero] at hq
      exact EFloat.noConfusion hq
    · rw [← hl0, rsiFormula_of_zero_loss g hgpos] at hq
      injection hq with h
      subst h
      norm_num
  · rw [rsiFormula_of_pos g l hg hlpos] at hq
    injection hq with h
    subst h
    have hrs : 0 ≤ g / l := div_nonneg hg hlpos.le
    have h1 : (1:ℚ) ≤ 1 + g / l := by linarith
    have hup : 100 / (1 + g / l) ≤ 100 := div_le_self (by norm_num) h1
    have hlow : 0 < 100 / (1 + g / l) := by positivity
    constructor <;> linarith

lemma rsiFormula_val_of_zero_loss (g q : ℚ) (hg : 0 ≤ g)
    (hq : rsiFormula g 0 = EFloat.val q) : q = 100 := by
  rcases eq_or_lt_of_le hg with hg0 | hgpos
  · rw [← hg0, rsiFormula_zero_zero] at hq
    exact EFloat.noConfusion hq
  · rw [rsiFormula_of_zero_loss g hgpos] at hq
    injection hq with h
    exact h.symm

lemma rsiFormula_val_of_zero_gain (l q : ℚ) (hl : 0 ≤ l)
    (hq : rsiFormula 0 l = EFloat.val q) : q = 0 := by
  rcases eq_or_lt_of_le hl with hl0 | hlpos
  · rw [← hl0, rsiFormula_zero_zero] at hq
    exact EFloat.noConfusion hq
  · rw [rsiFormula_of_pos 0 l le_rfl hlpos] at hq
    injection hq with h
    rw [← h]
    norm_num

lemma lossAt_eq_zero_of_nonneg_delta (closes : List ℚ) (j : ℕ)
    (h : 1 ≤ j → closes.getD (j - 1) 0 ≤ closes.getD j 0) :
    lossAt closes j = 0 := by
  unfold lossAt
  by_cases hj : j = 0
  · simp [hj]
  · have hd := h (by omega)
    rw [if_neg hj]
    exact max_eq_right (by linarith)

lemma gainAt_eq_zero_of_nonpos_delta (closes : List ℚ) (j : ℕ)
    (h : 1 ≤ j → closes.getD j 0 ≤ closes.getD (j - 1) 0) :
    gainAt closes j = 0 := by
  unfold gainAt
  by_cases hj : j = 0
  · simp [hj]
  · have hd := h (by omega)
    rw [if_neg hj]
    exact max_eq_right (by linarith)

lemma length_ewmAux (α p : ℚ) (xs : List ℚ) :
    (ewmAux α p xs).length = xs.length := by
  induction xs generalizing p with
  | nil => rfl
  | cons x rest ih => simp [ewmAux, ih]

lemma length_ewmMean (span : ℕ) (xs : List ℚ) :
    (ewmMean span xs).length = xs.length := by
  cases xs with
  | nil => rfl
  | cons x rest => simp [ewmMean, length_ewmAux]

lemma ewmMean_getElem?_zero (span : ℕ) (xs : List ℚ) :
    (ewmMean span xs)[0]? = xs[0]? := by
  cases xs with
  | nil => rfl
  | cons x rest => simp [ewmMean]

lemma ewmAux_rec (xs : List ℚ) (α p : ℚ) (i : ℕ) (x y : ℚ)
    (hx : xs[i + 1]? = some x) (hy : (ewmAux α p xs)[i]? = some y) :
    (ewmAux α p xs)[i + 1]? = some (α * x + (1 - α) * y) := by
  induction xs generalizing p i with
  | nil => exact Option.noConfusion hx
  | cons a rest ih =>
    cases i with
    | zero =>
      cases rest with
      | nil => exact Option.noConfusion hx
      | cons b rest2 =>
        have hxb : b = x := by
          simpa using hx
        have hyp : α * a + (1 - α) * p = y := by
          simpa [ewmAux] using hy
        simp [ewmAux, hxb, hyp]
    | succ k =>
      have hx' : rest[k + 1]? = some x := by simpa using hx
      have hy' : (ewmAux α (α * a + (1 - α) * p) rest)[k]? = some y := by
        simpa [ewmAux] using hy
      simpa [ewmAux] using ih (α * a + (1 - α) * p) k hx' hy'

lemma ewmMean_rec (span : ℕ) (xs : List ℚ) (i : ℕ) (x y : ℚ)
    (hx : xs[i + 1]? = some x) (hy : (ewmMean span xs)[i]? = some y) :
    (ewmMean span xs)[i + 1]? =
      some ((2 / (span + 1)) * x + (1 - 2 / (span + 1)) * y) := by
  cases xs with
  | nil => exact Option.noConfusion hx
  | cons c rest =>
    cases i with
    | zero =>
      cases rest with
      | nil => exact Option.noConfusion hx
      | cons b rest2 =>
        have hxb : b = x := by simpa using hx
        have hyc : c = y := by simpa [ewmMean] using hy
        simp [ewmMean, ewmAux, hxb, hyc]
    | succ k =>
      have hx' : rest[k + 1]? = some x := by simpa using hx
      have hy' : (ewmAux (2 / (span + 1)) c rest)[k]? = some y := by
        simpa [ewmMean] using hy
      simpa [ewmMean] using ewmAux_rec rest (2 / (span + 1)) c k x y hx' hy'

lemma length_cumsum (xs : List ℚ) : (cumsum xs).length = xs.length := by
  induction xs with
  | nil => rfl
  | cons x rest ih => simp [cumsum, ih]

lemma length_tpList (high low close : List ℚ)
    (h1 : high.length = close.length) (h2 : low.length = close.length) :
    (tpList high low close).length = close.length := by
  simp [tpList, h1, h2]

lemma length_calculate_vwap (high low close volume : List ℚ)
    (h1 : high.length = close.length) (h2 : low.length = close.length)
    (h3 : volume.length = close.length) :
    (calculate_vwap high low close volume).length = close.length := by
  simp [calculate_vwap, length_cumsum, length_tpList high low close h1 h2, h1,
    h2, h3, tpList]

lemma length_rollingMeanQ (w : ℕ) (xs : List ℚ) :
    (rollingMeanQ w xs).length = xs.length := by
  simp [rollingMeanQ]

lemma length_rollingVar (w : ℕ) (xs : List ℚ) :
    (rollingVar w xs).length = xs.length := by
  simp [rollingVar]

lemma length_bollingerMiddle (closes : List ℚ) :
    (bollingerMiddle closes).length = closes.length := by
  simp [bollingerMiddle, length_rollingMeanQ]

lemma length_bollingerUpper (closes : List ℚ) :
    (bollingerUpper closes).length = closes.length := by
  simp [bollingerUpper, length_bollingerMiddle, length_rollingVar]

lemma length_bollingerLower (closes : List ℚ) :
    (bollingerLower closes).length = closes.length := by
  simp [bollingerLower, length_bollingerMiddle, length_rollingVar]

lemma cumsum_getElem? (xs : List ℚ) (i : ℕ) (hi : i < xs.length) :
    (cumsum xs)[i]? = some ((xs.take (i + 1)).sum) := by
  induction xs generalizing i with
  | nil => simp at hi
  | cons x rest ih =>
    cases i with
    | zero => simp [cumsum]
    | succ k =>
      have hk : k < rest.length := by simpa using hi
      simp [cumsum, List.getElem?_map, ih k hk]

lemma calculate_vwap_getElem? (high low close volume : List ℚ)
    (h1 : high.length = close.length) (h2 : low.length = close.length)
    (h3 : volume.length = close.length) (i : ℕ) (hi : i < close.length) :
    (calculate_vwap high low close volume)[i]? =
      some (EFloat.div
        (EFloat.val (((List.zipWith (fun a b => a * b)
          (tpList high low close) volume).take (i + 1)).sum))
        (EFloat.val ((volume.take (i + 1)).sum))) := by
  have htp : (tpList high low close).length = close.length :=
    length_tpList high low close h1 h2
  have hnum : (List.zipWith (fun a b => a * b)
      (tpList high low close) volume).length = close.length := by
    simp [htp, h3]
  rw [calculate_vwap]
  rw [List.getElem?_zipWith',
    cumsum_getElem? _ i (by rw [hnum]; exact hi),
    cumsum_getElem? volume i (by rw [h3]; exact hi)]
  rfl

lemma sum_zipWith_mul_le (tps vols : List ℚ) (M : ℚ)
    (hlen : tps.length = vols.length) (hM : ∀ t ∈ tps, t ≤ M)
    (hv : ∀ v ∈ vols, 0 ≤ v) :
    (List.zipWith (fun a b => a * b) tps vols).sum ≤ M * vols.sum := by
  induction tps generalizing vols with
  | nil =>
    have : vols = [] := List.eq_nil_of_length_eq_zero (by simp at hlen; omega)
    subst this
    simp
  | cons t tps ih =>
    cases vols with
    | nil => simp at hlen
    | cons v vols =>
      have h1 : t ≤ M := hM t (List.mem_cons_self t tps)
      have h2 : 0 ≤ v := hv v (List.mem_cons_self v vols)
      have h3 := ih vols (by simpa using hlen)
        (fun u hu => hM u (List.mem_cons_of_mem t hu))
        (fun u hu => hv u (List.mem_cons_of_mem v hu))
      simp only [List.zipWith_cons_cons, List.sum_cons]
      have h4 : t * v ≤ M * v := mul_le_mul_of_nonneg_right h1 h2
      nlinarith [h3, h4]

lemma le_sum_zipWith_mul (tps vols : List ℚ) (m : ℚ)
    (hlen : tps.length = vols.length) (hm : ∀ t ∈ tps, m ≤ t)
    (hv : ∀ v ∈ vols, 0 ≤ v) :
    m * vols.sum ≤ (List.zipWith (fun a b => a * b) tps vols).sum := by
  induction tps generalizing vols with
  | nil =>
    have : vols = [] := List.eq_nil_of_length_eq_zero (by simp at hlen; omega)
    subst this
    simp
  | cons t tps ih =>
    cases vols with
    | nil => simp at hlen
    | cons v vols =>
      have h1 : m ≤ t := hm t (List.mem_cons_self t tps)
      have h2 : 0 ≤ v := hv v (List.mem_cons_self v vols)
      have h3 := ih vols (by simpa using hlen)
        (fun u hu => hm u (List.mem_cons_of_mem t hu))
        (fun u hu => hv u (List.mem_cons_of_mem v hu))
      simp only [List.zipWith_cons_cons, List.sum_cons]
      have h4 : m * v ≤ t * v := mul_le_mul_of_nonneg_right h1 h2
      nlinarith [h3, h4]

lemma exists_max_mem (l : List ℚ) (hne : l ≠ []) :
    ∃ t ∈ l, ∀ u ∈ l, u ≤ t := by
  induction l with
  | nil => exact absurd rfl hne
  | cons x rest ih =>
    cases rest with
    | nil =>
      exact ⟨x, List.mem_cons_self x [], by
        intro u hu
        simp only [List.mem_singleton] at hu
        exact le_of_eq hu⟩
    | cons y r2 =>
      obtain ⟨t, htmem, htmax⟩ := ih (by simp)
      by_cases hxt : x ≤ t
      · exact ⟨t, List.mem_cons_of_mem x htmem, by
          intro u hu
          rcases List.mem_cons.mp hu with rfl | hu2
          · exact hxt
          · exact htmax u hu2⟩
      · exact ⟨x, List.mem_cons_self x (y :: r2), by
          intro u hu
          rcases List.mem_cons.mp hu with rfl | hu2
          · exact le_refl u
          · exact le_trans (htmax u hu2) (le_of_not_le hxt)⟩

lemma exists_min_mem (l : List ℚ) (hne : l ≠ []) :
    ∃ t ∈ l, ∀ u ∈ l, t ≤ u := by
  induction l with
  | nil => exact absurd rfl hne
  | cons x rest ih =>
    cases rest with
    | nil =>
      exact ⟨x, List.mem_cons_self x [], by
        intro u hu
        simp only [List.mem_singleton] at hu
        exact ge_of_eq hu⟩
    | cons y r2 =>
      obtain ⟨t, htmem, htmin⟩ := ih (by simp)
      by_cases hxt : t ≤ x
      · exact ⟨t, List.mem_cons_of_mem x htmem, by
          intro u hu
          rcases List.mem_cons.mp hu with rfl | hu2
          · exact hxt
          · exact htmin u hu2⟩
      · exact ⟨x, List.mem_cons_self x (y :: r2), by
          intro u hu
          rcases List.mem_cons.mp hu with rfl | hu2
          · exact le_refl u
          · exact le_trans (le_of_not_le hxt) (htmin u hu2)⟩

lemma rollingMeanQ_getElem? (w : ℕ) (xs : List ℚ) (i : ℕ)
    (hi : i < xs.length) :
    (rollingMeanQ w xs)[i]? = some (if i + 1 < w then none
      else some (((xs.take (i + 1)).drop (i + 1 - w)).sum / w)) := by
  simp [rollingMeanQ, List.getElem?_eq_getElem, hi]

lemma rollingVar_getElem? (w : ℕ) (xs : List ℚ) (i : ℕ)
    (hi : i < xs.length) :
    (rollingVar w xs)[i]? = some (if i + 1 < w then none
      else some ((((xs.take (i + 1)).drop (i + 1 - w)).map
        (fun x => (x - ((xs.take (i + 1)).drop (i + 1 - w)).sum / (w : ℚ)) ^ 2)).sum
          / ((w : ℚ) - 1))) := by
  simp [rollingVar, List.getElem?_eq_getElem, hi]

lemma sum_sq_nonneg (l : List ℚ) (c : ℚ) :
    0 ≤ (l.map (fun x => (x - c) ^ 2)).sum := by
  apply List.sum_nonneg
  intro y hy
  obtain ⟨z, _, rfl⟩ := List.mem_map.mp hy
  exact sq_nonneg _

lemma sum_sq_eq_zero (l : List ℚ) (c : ℚ)
    (h : (l.map (fun x => (x - c) ^ 2)).sum = 0) : ∀ x ∈ l, x = c := by
  induction l with
  | nil => simp
  | cons a t ih =>
    simp only [List.map_cons, List.sum_cons] at h
    have h1 : 0 ≤ (a - c) ^ 2 := sq_nonneg _
    have h2 : 0 ≤ (t.map (fun x => (x - c) ^ 2)).sum := sum_sq_nonneg t c
    have ha : (a - c) ^ 2 = 0 := by linarith
    have hs : (t.map (fun x => (x - c) ^ 2)).sum = 0 := by linarith
    intro x hx
    rcases List.mem_cons.mp hx with rfl | hx2
    · exact sub_eq_zero.mp (sq_eq_zero_iff.mp ha)
    · exact ih hs x hx2

lemma all_zero_of_sum_zero_nonneg (l : List ℚ) (h0 : ∀ x ∈ l, 0 ≤ x)
    (hs : l.sum = 0) : ∀ x ∈ l, x = 0 := by
  induction l with
  | nil => simp
  | cons a t ih =>
    simp only [List.sum_cons] at hs
    have h1 : 0 ≤ a := h0 a (List.mem_cons_self a t)
    have h2 : 0 ≤ t.sum := List.sum_nonneg
      (fun x hx => h0 x (List.mem_cons_of_mem a hx))
    intro x hx
    rcases List.mem_cons.mp hx with rfl | hx2
    · linarith
    · exact ih (fun y hy => h0 y (List.mem_cons_of_mem a hy))
        (by linarith) x hx2

lemma zipWith_mul_sum_zero (tps vols : List ℚ) (h : ∀ v ∈ vols, v = 0) :
    (List.zipWith (fun a b => a * b) tps vols).sum = 0 := by
  induction tps generalizing vols with
  | nil => simp
  | cons t tps ih =>
    cases vols with
    | nil => simp
    | cons v vols =>
      have hv : v = 0 := h v (List.mem_cons_self v vols)
      simp only [List.zipWith_cons_cons, List.sum_cons, hv, mul_zero,
        zero_add]
      exact ih vols (fun u hu => h u (List.mem_cons_of_mem v hu))

/-! ## Claim theorems -/

/-- C2: for every input series and every index at which `calculate_rsi`'s
output is defined (a finite value, not NaN), the RSI value lies in
`[0, 100]`; moreover, whenever all period-over-period close differences in
the trailing 14-window are non-negative, the defined RSI value there is
100, and whenever all such differences are non-positive, it is 0. -/
theorem rsi_bounded_and_saturating (closes : List ℚ) (i : ℕ) (v : EFloat)
    (hv : (calculate_rsi closes 14)[i]? = some v) :
    (∀ q : ℚ, v = EFloat.val q → 0 ≤ q ∧ q ≤ 100)
    ∧ ((∀ j, i + 1 - 14 ≤ j → j ≤ i → 1 ≤ j →
          closes.getD (j - 1) 0 ≤ closes.getD j 0) →
        ∀ q : ℚ, v = EFloat.val q → q = 100)
    ∧ ((∀ j, i + 1 - 14 ≤ j → j ≤ i → 1 ≤ j →
          closes.getD j 0 ≤ closes.getD (j - 1) 0) →
        ∀ q : ℚ, v = EFloat.val q → q = 0) := by
  have hi : i < closes.length := by
    by_contra hcon
    rw [List.getElem?_eq_none (by rw [length_calculate_rsi]; omega)] at hv
    exact Option.noConfusion hv
  by_cases hw : i + 1 < 14
  · have hnan := calculate_rsi_getElem?_nan closes 14 i hw hi
    rw [hv] at hnan
    have hvn : v = EFloat.nan := Option.some_inj.mp hnan
    subst hvn
    exact ⟨fun q hq => EFloat.noConfusion hq,
      fun _ q hq => EFloat.noConfusion hq,
      fun _ q hq => EFloat.noConfusion hq⟩
  · have hform := calculate_rsi_getElem?_eq closes 14 i (by omega) hi
    rw [hv] at hform
    have hveq := Option.some_inj.mp hform
    have hG0 : 0 ≤ windowSum (gainAt closes) 14 i :=
      windowSum_nonneg _ (gainAt_nonneg closes) 14 i
    have hL0 : 0 ≤ windowSum (lossAt closes) 14 i :=
      windowSum_nonneg _ (lossAt_nonneg closes) 14 i
    refine ⟨?_, ?_, ?_⟩
    · intro q hq
      exact rsiFormula_val_bounds _ _ q (by positivity) (by positivity)
        (hveq.symm.trans hq)
    · intro hmono q hq
      have hLz : windowSum (lossAt closes) 14 i = 0 :=
        windowSum_eq_zero _ 14 i (by omega) (fun j hj1 hj2 =>
          lossAt_eq_zero_of_nonneg_delta closes j
            (fun h1 => hmono j hj1 hj2 h1))
      have hq' := hveq.symm.trans hq
      rw [hLz, zero_div] at hq'
      exact rsiFormula_val_of_zero_loss _ q (by positivity) hq'
    · intro hmono q hq
      have hGz : windowSum (gainAt closes) 14 i = 0 :=
        windowSum_eq_zero _ 14 i (by omega) (fun j hj1 hj2 =>
          gainAt_eq_zero_of_nonpos_delta closes j
            (fun h1 => hmono j hj1 hj2 h1))
      have hq' := hveq.symm.trans hq
      rw [hGz, zero_div] at hq'
      exact rsiFormula_val_of_zero_gain _ q (by positivity) hq'

/-- Witness for C2: on fourteen constant closes followed by a rise, the
RSI output at index 14 is defined and equal to 100, and the saturation
part of the theorem applies there. -/
theorem rsi_bounded_and_saturating_witness :
    (calculate_rsi [10, 10, 10, 10, 10, 10, 10, 10, 10, 10, 10, 10, 10, 10, 11]
        14)[14]? = some (EFloat.val 100) ∧ (100:ℚ) = 100 := by
  have hv : (calculate_rsi
      [10, 10, 10, 10, 10, 10, 10, 10, 10, 10, 10, 10, 10, 10, 11]
        14)[14]? = some (EFloat.val 100) := by
    rw [calculate_rsi_getElem?_eq _ 14 14 (by norm_num) (by simp)]
    have hL : windowSum (lossAt
        [10, 10, 10, 10, 10, 10, 10, 10, 10, 10, 10, 10, 10, 10, 11]) 14 14
        = 0 := by
      norm_num [windowSum, List.range', lossAt, List.getD]
    have hG : windowSum (gainAt
        [10, 10, 10, 10, 10, 10, 10, 10, 10, 10, 10, 10, 10, 10, 11]) 14 14
        = 1 := by
      norm_num [windowSum, List.range', gainAt, List.getD]
    rw [hG, hL, zero_div, rsiFormula_of_zero_loss _ (by norm_num)]
  refine ⟨hv, (rsi_bounded_and_saturating _ 14 (EFloat.val 100) hv).2.1
    ?_ 100 rfl⟩
  intro j h1 h2 h3
  interval_cases j <;> norm_num [List.getD]

/-- C4: the first 13 outputs of `calculate_rsi` with the default window
14 (indices 0 through 12) are NaN, and from index 13 on the output is
the RSI expression computed from the trailing 14-window of recorded
gains and losses. -/
theorem rsi_warmup_and_trailing_window (closes : List ℚ) (i : ℕ)
    (hi : i < closes.length) :
    (i < 13 → (calculate_rsi closes 14)[i]? = some EFloat.nan)
    ∧ (13 ≤ i → (calculate_rsi closes 14)[i]? =
        some (rsiFormula (windowSum (gainAt closes) 14 i / 14)
          (windowSum (lossAt closes) 14 i / 14))) := by
  constructor
  · intro h
    exact calculate_rsi_getElem?_nan closes 14 i (by omega) hi
  · intro h
    exact calculate_rsi_getElem?_eq closes 14 i (by omega) hi

/-- Witness for C4 at a concrete 15-element series: index 5 is NaN and
index 13 carries the trailing-window RSI expression. -/
theorem rsi_warmup_and_trailing_window_witness :
    (calculate_rsi [1, 2, 3, 4, 5, 6, 7, 8, 9, 10, 11, 12, 13, 14, 15]
        14)[5]? = some EFloat.nan
    ∧ (calculate_rsi [1, 2, 3, 4, 5, 6, 7, 8, 9, 10, 11, 12, 13, 14, 15]
        14)[13]? =
      some (rsiFormula
        (windowSum (gainAt [1, 2, 3, 4, 5, 6, 7, 8, 9, 10, 11, 12, 13, 14, 15]) 14 13 / 14)
        (windowSum (lossAt [1, 2, 3, 4, 5, 6, 7, 8, 9, 10, 11, 12, 13, 14, 15]) 14 13 / 14)) :=
  ⟨(rsi_warmup_and_trailing_window
      [1, 2, 3, 4, 5, 6, 7, 8, 9, 10, 11, 12, 13, 14, 15] 5
      (by decide)).1 (by decide),
   (rsi_warmup_and_trailing_window
      [1, 2, 3, 4, 5, 6, 7, 8, 9, 10, 11, 12, 13, 14, 15] 13
      (by decide)).2 (by decide)⟩

/-- C3: each EMA of `calculate_macd` follows the `adjust=False`
recurrence with `α = 2/(span+1)` — seeded at the first close, each later
value `α·x + (1−α)·prev`; `macd` is the pointwise difference of the fast
and slow EMAs of close, the signal line is the signal-span EMA of
`macd`, and `macd[0] = 0` for every nonempty input. -/
theorem macd_ema_recurrence_and_zero_start (closes : List ℚ)
    (fast slow signal : ℕ) :
    (∀ (span : ℕ) (xs : List ℚ), (ewmMean span xs)[0]? = xs[0]?)
    ∧ (∀ (span : ℕ) (xs : List ℚ) (i : ℕ) (x y : ℚ),
        xs[i + 1]? = some x → (ewmMean span xs)[i]? = some y →
        (ewmMean span xs)[i + 1]? =
          some ((2 / (span + 1)) * x + (1 - 2 / (span + 1)) * y))
    ∧ (calculate_macd closes fast slow signal).1 =
        List.zipWith (fun a b => a - b) (ewmMean fast closes)
          (ewmMean slow closes)
    ∧ (calculate_macd closes fast slow signal).2 =
        ewmMean signal (calculate_macd closes fast slow signal).1
    ∧ (closes ≠ [] →
        (calculate_macd closes fast slow signal).1[0]? = some 0) := by
  refine ⟨ewmMean_getElem?_zero, ewmMean_rec, rfl, rfl, ?_⟩
  intro hne
  cases closes with
  | nil => exact absurd rfl hne
  | cons c rest =>
    have h1 : (ewmMean fast (c :: rest))[0]? = some c := by
      rw [ewmMean_getElem?_zero fast (c :: rest)]
      simp
    have h2 : (ewmMean slow (c :: rest))[0]? = some c := by
      rw [ewmMean_getElem?_zero slow (c :: rest)]
      simp
    show (List.zipWith (fun a b => a - b) (ewmMean fast (c :: rest))
      (ewmMean slow (c :: rest)))[0]? = some 0
    rw [List.getElem?_zipWith', h1, h2]
    simp

/-- Witness for C3: on the two-element series `[1, 2]` with the default
spans, the macd output starts at 0. -/
theorem macd_ema_recurrence_and_zero_start_witness :
    (calculate_macd [1, 2] 12 26 9).1[0]? = some 0 :=
  (macd_ema_recurrence_and_zero_start [1, 2] 12 26 9).2.2.2.2 (by simp)

/-- C1: with aligned OHLCV columns, every indicator output has the same
length as the input series: the RSI sequence, both MACD sequences, the
VWAP sequence and the three Bollinger sequences.  (The embedding's
functions are pure, so inputs are never mutated.) -/
theorem indicator_output_lengths (high low close volume : List ℚ)
    (h1 : high.length = close.length) (h2 : low.length = close.length)
    (h3 : volume.length = close.length) :
    (calculate_rsi close 14).length = close.length
    ∧ (calculate_macd close 12 26 9).1.length = close.length
    ∧ (calculate_macd close 12 26 9).2.length = close.length
    ∧ (calculate_vwap high low close volume).length = close.length
    ∧ (bollingerMiddle close).length = close.length
    ∧ (bollingerUpper close).length = close.length
    ∧ (bollingerLower close).length = close.length := by
  have hm : (calculate_macd close 12 26 9).1.length = close.length := by
    simp [calculate_macd, length_ewmMean]
  refine ⟨length_calculate_rsi close 14, hm, ?_, ?_, length_bollingerMiddle
    close, length_bollingerUpper close, length_bollingerLower close⟩
  · show (ewmMean 9 (calculate_macd close 12 26 9).1).length = close.length
    rw [length_ewmMean, hm]
  · exact length_calculate_vwap high low close volume h1 h2 h3

/-- Witness for C1 on a concrete one-bar series. -/
theorem indicator_output_lengths_witness :
    (calculate_rsi [9] 14).length = ([(9:ℚ)]).length
    ∧ (calculate_macd [9] 12 26 9).1.length = ([(9:ℚ)]).length
    ∧ (calculate_macd [9] 12 26 9).2.length = ([(9:ℚ)]).length
    ∧ (calculate_vwap [10] [8] [9] [100]).length = ([(9:ℚ)]).length
    ∧ (bollingerMiddle [9]).length = ([(9:ℚ)]).length
    ∧ (bollingerUpper [9]).length = ([(9:ℚ)]).length
    ∧ (bollingerLower [9]).length = ([(9:ℚ)]).length :=
  indicator_output_lengths [10] [8] [9] [100] (by simp) (by simp) (by simp)

/-- C6: at each position VWAP is the cumulative sum of `tp·volume`
divided by the cumulative sum of `volume` from the start of the series,
with `tp = (high+low+close)/3`; and on the single bar
`{high:10, low:8, close:9, volume:100}` it returns exactly `[9]`. -/
theorem vwap_cumulative_ratio (high low close volume : List ℚ)
    (h1 : high.length = close.length) (h2 : low.length = close.length)
    (h3 : volume.length = close.length) (i : ℕ) (hi : i < close.length) :
    ((calculate_vwap high low close volume)[i]? =
      some (EFloat.div
        (EFloat.val (((List.zipWith (fun a b => a * b)
          (tpList high low close) volume).take (i + 1)).sum))
        (EFloat.val ((volume.take (i + 1)).sum))))
    ∧ calculate_vwap [10] [8] [9] [100] = [EFloat.val 9] := by
  refine ⟨calculate_vwap_getElem? high low close volume h1 h2 h3 i hi, ?_⟩
  norm_num [calculate_vwap, tpList, cumsum, EFloat.div]

/-- Witness for C6 on the single-bar series of the spec's example. -/
theorem vwap_cumulative_ratio_witness :
    ((calculate_vwap [10] [8] [9] [100])[0]? =
      some (EFloat.div
        (EFloat.val (((List.zipWith (fun a b => a * b)
          (tpList [10] [8] [9]) [100]).take 1).sum))
        (EFloat.val (([(100:ℚ)].take 1).sum))))
    ∧ calculate_vwap [10] [8] [9] [100] = [EFloat.val 9] :=
  vwap_cumulative_ratio [10] [8] [9] [100] (by simp) (by simp) (by simp) 0
    (by simp)

/-- C7: wherever VWAP is defined with positive cumulative volume (and
volumes are non-negative, as in a well-formed series), its value lies
between the minimum and the maximum typical price seen so far: some
typical price in the prefix is ≤ it and some is ≥ it. -/
theorem vwap_between_typical_price_extremes (high low close volume : List ℚ)
    (h1 : high.length = close.length) (h2 : low.length = close.length)
    (h3 : volume.length = close.length) (hvol : ∀ v ∈ volume, 0 ≤ v)
    (i : ℕ) (hi : i < close.length)
    (hpos : 0 < (volume.take (i + 1)).sum) (q : ℚ)
    (hq : (calculate_vwap high low close volume)[i]? =
      some (EFloat.val q)) :
    (∃ t ∈ (tpList high low close).take (i + 1), t ≤ q)
    ∧ (∃ t ∈ (tpList high low close).take (i + 1), q ≤ t) := by
  have htp : (tpList high low close).length = close.length :=
    length_tpList high low close h1 h2
  have hform := calculate_vwap_getElem? high low close volume h1 h2 h3 i hi
  rw [hq] at hform
  have hval := Option.some_inj.mp hform
  have hS0 : (volume.take (i + 1)).sum ≠ 0 := ne_of_gt hpos
  rw [show EFloat.div
      (EFloat.val (((List.zipWith (fun a b => a * b)
        (tpList high low close) volume).take (i + 1)).sum))
      (EFloat.val ((volume.take (i + 1)).sum)) =
      EFloat.val ((((List.zipWith (fun a b => a * b)
        (tpList high low close) volume).take (i + 1)).sum) /
        ((volume.take (i + 1)).sum)) by simp [EFloat.div, hS0]] at hval
  have hqe : q = (((List.zipWith (fun a b => a * b)
      (tpList high low close) volume).take (i + 1)).sum) /
      ((volume.take (i + 1)).sum) := by
    injection hval
  have hzip : (List.zipWith (fun a b => a * b)
      (tpList high low close) volume).take (i + 1) =
      List.zipWith (fun a b => a * b) ((tpList high low close).take (i + 1))
        (volume.take (i + 1)) := List.take_zipWith
  have hlen : ((tpList high low close).take (i + 1)).length =
      (volume.take (i + 1)).length := by
    simp [htp, h3]
  have hvols : ∀ v ∈ volume.take (i + 1), 0 ≤ v := fun v hv =>
    hvol v (List.take_subset (i + 1) volume hv)
  have hne : (tpList high low close).take (i + 1) ≠ [] := by
    apply List.ne_nil_of_length_pos
    simp only [List.length_take]
    omega
  constructor
  · obtain ⟨m, hmem, hmin⟩ :=
      exists_min_mem ((tpList high low close).take (i + 1)) hne
    refine ⟨m, hmem, ?_⟩
    have hlb := le_sum_zipWith_mul ((tpList high low close).take (i + 1))
      (volume.take (i + 1)) m hlen hmin hvols
    rw [hqe, le_div_iff₀ hpos, hzip]
    linarith
  · obtain ⟨M, hmem, hmax⟩ :=
      exists_max_mem ((tpList high low close).take (i + 1)) hne
    refine ⟨M, hmem, ?_⟩
    have hub := sum_zipWith_mul_le ((tpList high low close).take (i + 1))
      (volume.take (i + 1)) M hlen hmax hvols
    rw [hqe, div_le_iff₀ hpos, hzip]
    linarith

/-- Witness for C7: on a two-bar series the VWAP at index 1 is bracketed
by typical prices of the prefix. -/
theorem vwap_between_typical_price_extremes_witness :
    (∃ t ∈ (tpList [10, 20] [8, 16] [9, 18]).take 2, t ≤ 27 / 2)
    ∧ (∃ t ∈ (tpList [10, 20] [8, 16] [9, 18]).take 2, (27:ℚ) / 2 ≤ t) :=
  vwap_between_typical_price_extremes [10, 20] [8, 16] [9, 18] [100, 100]
    (by simp) (by simp) (by simp)
    (by intro v hv; rcases List.mem_cons.mp hv with rfl | hv2
        · norm_num
        · simp only [List.mem_singleton] at hv2; rw [hv2]; norm_num)
    1 (by simp)
    (by norm_num)
    (27 / 2)
    (by rw [calculate_vwap_getElem? _ _ _ _ (by simp) (by simp) (by simp) 1
          (by simp)]
        norm_num [tpList, EFloat.div])

/-- C5: wherever the three Bollinger outputs are all defined,
`upper ≥ middle ≥ lower`; equality of either pair forces the trailing
sample variance to be 0, i.e. the closes in the trailing 20-window are
constant. -/
theorem bollinger_band_ordering (closes : List ℚ) (i : ℕ) (m : ℚ) (u l : ℝ)
    (hm : (bollingerMiddle closes)[i]? = some (some m))
    (hu : (bollingerUpper closes)[i]? = some (some u))
    (hl : (bollingerLower closes)[i]? = some (some l)) :
    (l ≤ (m : ℝ) ∧ (m : ℝ) ≤ u)
    ∧ ((u = (m : ℝ) ∨ (m : ℝ) = l) →
        (rollingVar 20 closes)[i]? = some (some 0)
        ∧ ∀ a ∈ (closes.take (i + 1)).drop (i + 1 - 20),
          ∀ b ∈ (closes.take (i + 1)).drop (i + 1 - 20), a = b) := by
  have hi : i < closes.length := by
    by_contra hcon
    rw [List.getElem?_eq_none (by rw [length_bollingerMiddle]; omega)] at hm
    exact Option.noConfusion hm
  have hiv : i < (rollingVar 20 closes).length := by
    rw [length_rollingVar]; exact hi
  obtain ⟨vo, hvo⟩ : ∃ vo, (rollingVar 20 closes)[i]? = some vo :=
    ⟨_, List.getElem?_eq_getElem hiv⟩
  rw [bollingerUpper, List.getElem?_zipWith', hm, hvo] at hu
  rw [bollingerLower, List.getElem?_zipWith', hm, hvo] at hl
  simp only [Option.map_some', Option.bind_some, Option.some_bind,
    Option.some.injEq] at hu hl
  cases vo with
  | none => exact Option.noConfusion hu
  | some v =>
    simp only [Option.map_some', Option.some.injEq] at hu hl
    have hvar := rollingVar_getElem? 20 closes i hi
    rw [hvo] at hvar
    have hveq := Option.some_inj.mp hvar
    by_cases h20 : i + 1 < 20
    · rw [if_pos h20] at hveq
      exact Option.noConfusion hveq
    · rw [if_neg h20] at hveq
      have hveq' := Option.some_inj.mp hveq
      set win := (closes.take (i + 1)).drop (i + 1 - 20) with hwin
      set mn := win.sum / ((20:ℕ) : ℚ) with hmn
      have hS0 : 0 ≤ (win.map (fun x => (x - mn) ^ 2)).sum :=
        sum_sq_nonneg win mn
      have h19 : (((20:ℕ) : ℚ) - 1) = 19 := by norm_num
      have hv0 : 0 ≤ v := by
        rw [hveq', h19]
        positivity
      have hsq : 0 ≤ Real.sqrt (v : ℝ) := Real.sqrt_nonneg _
      constructor
      · constructor
        · rw [← hl]; linarith
        · rw [← hu]; linarith
      · intro heq
        have hsz : Real.sqrt (v : ℝ) = 0 := by
          rcases heq with h | h
          · rw [← hu] at h; linarith
          · rw [← hl] at h; linarith
        have hvle : (v : ℝ) ≤ 0 := Real.sqrt_eq_zero'.mp hsz
        have hvz : v = 0 := le_antisymm (by exact_mod_cast hvle) hv0
        have hSz : (win.map (fun x => (x - mn) ^ 2)).sum = 0 := by
          have h := hveq'
          rw [hvz, h19] at h
          field_simp at h
          linarith [h]
        have hconst := sum_sq_eq_zero win mn hSz
        refine ⟨by rw [hvo, hvz], fun a ha b hb => ?_⟩
        rw [hconst a ha, hconst b hb]

/-- Witness for C5: twenty constant closes make all three bands defined
and equal at index 19, with zero variance and a constant window. -/
theorem bollinger_band_ordering_witness :
    (rollingVar 20 [5, 5, 5, 5, 5, 5, 5, 5, 5, 5, 5, 5, 5, 5, 5, 5, 5, 5, 5,
        (5:ℚ)])[19]? = some (some 0)
    ∧ ∀ a ∈ (([5, 5, 5, 5, 5, 5, 5, 5, 5, 5, 5, 5, 5, 5, 5, 5, 5, 5, 5,
        (5:ℚ)].take (19 + 1)).drop (19 + 1 - 20)),
      ∀ b ∈ (([5, 5, 5, 5, 5, 5, 5, 5, 5, 5, 5, 5, 5, 5, 5, 5, 5, 5, 5,
        (5:ℚ)].take (19 + 1)).drop (19 + 1 - 20)), a = b := by
  have hm : (bollingerMiddle [5, 5, 5, 5, 5, 5, 5, 5, 5, 5, 5, 5, 5, 5, 5,
      5, 5, 5, 5, (5:ℚ)])[19]? = some (some 5) := by
    rw [bollingerMiddle, rollingMeanQ_getElem? 20 _ 19 (by simp)]
    norm_num [List.take, List.drop]
  have hvar : (rollingVar 20 [5, 5, 5, 5, 5, 5, 5, 5, 5, 5, 5, 5, 5, 5, 5,
      5, 5, 5, 5, (5:ℚ)])[19]? = some (some 0) := by
    rw [rollingVar_getElem? 20 _ 19 (by simp)]
    norm_num [List.take, List.drop]
  have hu : (bollingerUpper [5, 5, 5, 5, 5, 5, 5, 5, 5, 5, 5, 5, 5, 5, 5,
      5, 5, 5, 5, (5:ℚ)])[19]? = some (some 5) := by
    rw [bollingerUpper, List.getElem?_zipWith', hm, hvar]
    norm_num
  have hl : (bollingerLower [5, 5, 5, 5, 5, 5, 5, 5, 5, 5, 5, 5, 5, 5, 5,
      5, 5, 5, 5, (5:ℚ)])[19]? = some (some 5) := by
    rw [bollingerLower, List.getElem?_zipWith', hm, hvar]
    norm_num
  exact (bollinger_band_ordering _ 19 5 5 5 hm hu hl).2
    (Or.inl (by norm_num))

/-- C8: the indicator operations are total functions of the input
series: an empty series yields an empty output for each of them, and
every position that is produced is either a finite value or NaN — an
undefined position only ever appears as NaN (for RSI always, for VWAP
over well-formed series with non-negative volumes). -/
theorem indicators_total_and_undefined_only_nan :
    (calculate_rsi [] 14 = [] ∧ calculate_macd [] 12 26 9 = ([], [])
      ∧ calculate_vwap [] [] [] [] = [] ∧ bollingerMiddle [] = []
      ∧ bollingerUpper [] = [] ∧ bollingerLower [] = [])
    ∧ (∀ (closes : List ℚ) (i : ℕ) (v : EFloat),
        (calculate_rsi closes 14)[i]? = some v →
        v = EFloat.nan ∨ ∃ q : ℚ, v = EFloat.val q)
    ∧ (∀ (high low close volume : List ℚ),
        high.length = close.length → low.length = close.length →
        volume.length = close.length → (∀ x ∈ volume, 0 ≤ x) →
        ∀ (i : ℕ) (v : EFloat),
        (calculate_vwap high low close volume)[i]? = some v →
        v = EFloat.nan ∨ ∃ q : ℚ, v = EFloat.val q) := by
  refine ⟨⟨rfl, rfl, rfl, rfl, rfl, rfl⟩, ?_, ?_⟩
  · intro closes i v hv
    have hi : i < closes.length := by
      by_contra hcon
      rw [List.getElem?_eq_none (by rw [length_calculate_rsi]; omega)] at hv
      exact Option.noConfusion hv
    by_cases hw : i + 1 < 14
    · left
      have := calculate_rsi_getElem?_nan closes 14 i hw hi
      rw [hv] at this
      exact Option.some_inj.mp this
    · have hform := calculate_rsi_getElem?_eq closes 14 i (by omega) hi
      rw [hv] at hform
      have hveq := Option.some_inj.mp hform
      have hG0 : 0 ≤ windowSum (gainAt closes) 14 i / ((14:ℕ) : ℚ) := by
        have := windowSum_nonneg _ (gainAt_nonneg closes) 14 i
        positivity
      have hL0 : 0 ≤ windowSum (lossAt closes) 14 i / ((14:ℕ) : ℚ) := by
        have := windowSum_nonneg _ (lossAt_nonneg closes) 14 i
        positivity
      rcases eq_or_lt_of_le hL0 with hl0 | hlpos
      · rcases eq_or_lt_of_le hG0 with hg0 | hgpos
        · left
          rw [hveq, ← hg0, ← hl0, rsiFormula_zero_zero]
        · right
          exact ⟨100, by rw [hveq, ← hl0, rsiFormula_of_zero_loss _ hgpos]⟩
      · right
        exact ⟨_, by rw [hveq, rsiFormula_of_pos _ _ hG0 hlpos]⟩
  · intro high low close volume h1 h2 h3 hvol i v hv
    have hi : i < close.length := by
      by_contra hcon
      rw [List.getElem?_eq_none
        (by rw [length_calculate_vwap high low close volume h1 h2 h3]
            omega)] at hv
      exact Option.noConfusion hv
    have hform := calculate_vwap_getElem? high low close volume h1 h2 h3 i hi
    rw [hv] at hform
    have hveq := Option.some_inj.mp hform
    by_cases hS0 : (volume.take (i + 1)).sum = 0
    · left
      have hz : ∀ x ∈ volume.take (i + 1), x = 0 :=
        all_zero_of_sum_zero_nonneg _
          (fun x hx => hvol x (List.take_subset (i + 1) volume hx)) hS0
      have hS1 : ((List.zipWith (fun a b => a * b)
          (tpList high low close) volume).take (i + 1)).sum = 0 := by
        rw [List.take_zipWith]
        exact zipWith_mul_sum_zero _ _ hz
      rw [hveq, hS1, hS0]
      simp [EFloat.div]
    · right
      refine ⟨(((List.zipWith (fun a b => a * b) (tpList high low close)
          volume).take (i + 1)).sum) / ((volume.take (i + 1)).sum), ?_⟩
      rw [hveq]
      simp [EFloat.div, hS0]

/-- Witness for C8: the single-bar VWAP output value is a finite value
(the right disjunct). -/
theorem indicators_total_and_undefined_only_nan_witness :
    EFloat.val 9 = EFloat.nan ∨ ∃ q : ℚ, EFloat.val 9 = EFloat.val q :=
  indicators_total_and_undefined_only_nan.2.2 [10] [8] [9] [100]
    (by simp) (by simp) (by simp)
    (by intro x hx; simp only [List.mem_singleton] at hx; rw [hx]; norm_num)
    0 (EFloat.val 9)
    (by norm_num [calculate_vwap, tpList, cumsum, EFloat.div])

/-- C9: from the decoded response on, `get_stock_data` fails exactly
when the response has an `"Error Message"` field, has a `"Note"` field,
or lacks the expected time-series key for the interval; on success it
returns the series sorted in ascending timestamp order (strictly, when
the timestamps are distinct as dict keys are). -/
theorem get_stock_data_raises_exactly_and_sorted (symbol : String)
    (interval : Interval) (data : ApiResponse) :
    ((∃ e, get_stock_data symbol interval data = Except.error e) ↔
      (data.errorMessage ≠ none ∨ data.note ≠ none ∨
        lookupKey (timeSeriesKey interval) data.series = none))
    ∧ (∀ ts, get_stock_data symbol interval data = Except.ok ts →
        List.Pairwise (fun a b : ℤ × RawBar => a.1 ≤ b.1) ts
        ∧ ((ts.map Prod.fst).Nodup →
            List.Pairwise (fun a b : ℤ × RawBar => a.1 < b.1) ts)) := by
  constructor
  · rcases hEM : data.errorMessage with _ | e
    · rcases hN : data.note with _ | n
      · rcases hL : lookupKey (timeSeriesKey interval) data.series
          with _ | ts0
        · simp [get_stock_data, hEM, hN, hL]
        · simp [get_stock_data, hEM, hN, hL]
      · simp [get_stock_data, hEM, hN]
    · simp [get_stock_data, hEM]
  · intro ts hok
    unfold get_stock_data at hok
    by_cases hEM : data.errorMessage.isSome
    · rw [if_pos hEM] at hok
      exact Except.noConfusion hok
    · rw [if_neg hEM] at hok
      by_cases hN : data.note.isSome
      · rw [if_pos hN] at hok
        exact Except.noConfusion hok
      · rw [if_neg hN] at hok
        rcases hL : lookupKey (timeSeriesKey interval) data.series
          with _ | ts0
        · rw [hL] at hok
          exact Except.noConfusion hok
        · rw [hL] at hok
          injection hok with hok'
          subst hok'
          have hle : List.Pairwise (fun a b : ℤ × RawBar => a.1 ≤ b.1)
              (sortByTimestamp ts0) :=
            List.sorted_insertionSort (fun a b : ℤ × RawBar => a.1 ≤ b.1) ts0
          refine ⟨hle, fun hnodup => ?_⟩
          have hne : List.Pairwise (fun a b : ℤ × RawBar => a.1 ≠ b.1)
              (sortByTimestamp ts0) := List.pairwise_map.mp hnodup
          exact (hle.and hne).imp (fun h => lt_of_le_of_ne h.1 h.2)

/-- Witness for C9: a response holding the daily key with timestamps
out of order is returned sorted (here strictly). -/
theorem get_stock_data_raises_exactly_and_sorted_witness :
    List.Pairwise (fun a b : ℤ × RawBar => a.1 ≤ b.1)
      [(1, RawBar.mk 1 2 3 4 5), (2, RawBar.mk 6 7 8 9 10)]
    ∧ ((([(1, RawBar.mk 1 2 3 4 5),
          (2, RawBar.mk 6 7 8 9 10)] : List (ℤ × RawBar)).map
            Prod.fst).Nodup →
        List.Pairwise (fun a b : ℤ × RawBar => a.1 < b.1)
          [(1, RawBar.mk 1 2 3 4 5), (2, RawBar.mk 6 7 8 9 10)]) :=
  (get_stock_data_raises_exactly_and_sorted "AAPL" Interval.daily
    ⟨none, none, [("Time Series (Daily)",
      [(2, RawBar.mk 6 7 8 9 10), (1, RawBar.mk 1 2 3 4 5)])]⟩).2
    [(1, RawBar.mk 1 2 3 4 5), (2, RawBar.mk 6 7 8 9 10)]
    (by simp [get_stock_data, lookupKey, timeSeriesKey, sortByTimestamp,
      List.insertionSort, List.orderedInsert])

/-- C10: `get_financial_ratios` is total over any decoded JSON-object
response: it always returns exactly the eight labeled fields, and each
field absent from the response carries the `"N/A"` placeholder (inside
the `$`/`%` formatting for market cap and dividend yield). -/
theorem financial_ratios_total_with_placeholders
    (data : List (String × String)) :
    (get_financial_ratios data).length = 8
    ∧ (get_financial_ratios data).map Prod.fst =
        ["P/E Ratio", "EPS", "ROE", "Market Cap", "Dividend Yield",
          "Profit Margin", "52 Week High", "52 Week Low"]
    ∧ (data.find? (fun p => p.1 == "PERatio") = none →
        (get_financial_ratios data)[0]? = some ("P/E Ratio", "N/A"))
    ∧ (data.find? (fun p => p.1 == "EPS") = none →
        (get_financial_ratios data)[1]? = some ("EPS", "N/A"))
    ∧ (data.find? (fun p => p.1 == "ReturnOnEquityTTM") = none →
        (get_financial_ratios data)[2]? = some ("ROE", "N/A"))
    ∧ (data.find? (fun p => p.1 == "MarketCapitalization") = none →
        (get_financial_ratios data)[3]? =
          some ("Market Cap", "$" ++ "N/A"))
    ∧ (data.find? (fun p => p.1 == "DividendYield") = none →
        (get_financial_ratios data)[4]? =
          some ("Dividend Yield", "N/A" ++ "%"))
    ∧ (data.find? (fun p => p.1 == "ProfitMargin") = none →
        (get_financial_ratios data)[5]? = some ("Profit Margin", "N/A"))
    ∧ (data.find? (fun p => p.1 == "52WeekHigh") = none →
        (get_financial_ratios data)[6]? = some ("52 Week High", "N/A"))
    ∧ (data.find? (fun p => p.1 == "52WeekLow") = none →
        (get_financial_ratios data)[7]? = some ("52 Week Low", "N/A")) := by
  refine ⟨rfl, rfl, ?_, ?_, ?_, ?_, ?_, ?_, ?_, ?_⟩ <;>
    (intro h; simp [get_financial_ratios, h])

/-- Witness for C10 on the empty response: all eight fields come back
with the placeholder. -/
theorem financial_ratios_total_with_placeholders_witness :
    (get_financial_ratios []).length = 8
    ∧ (get_financial_ratios [])[3]? = some ("Market Cap", "$" ++ "N/A") :=
  ⟨(financial_ratios_total_with_placeholders []).1,
   (financial_ratios_total_with_placeholders []).2.2.2.2.2.1 rfl⟩

end NasdaqStock
